import Mathlib

/-!
Verification development for the lablog backend (a personal blog/log server).

The Python source is shallowly embedded:
* Python `dict[str, X]` (insertion ordered) is embedded as an association
  list `List (String × X)`; `dictInsert` updates the first matching key in
  place or appends a fresh key at the end, exactly as CPython dicts behave.
* Python `float` timestamps are embedded as `ℚ`: the only operations the
  code performs on them are order comparisons and truncation to integer
  seconds, which on the floats the program manipulates coincide with the
  rational operations.
* Raised exceptions (`KeyError` from a missing dict key, `ValueError` from
  `list.remove` on a missing element or from the explicit raise in
  `add_comment`) are embedded as `Except PyExn`.  The spec's error
  taxonomy maps `ValueError` to `InvalidInput` and `KeyError` to
  `NotFound`.  Returning `.error` with no state is faithful because in
  every fallible operation of this code the exception fires before any
  mutation happens.
* `uuid.uuid4()` is embedded as an explicit id argument; freshness of the
  generated id is a hypothesis (the code relies on uuid uniqueness).
* `time.time()` / `datetime.now()` are embedded as an explicit `now`
  argument.
-/

/-- PyExn models the Python exceptions the embedded code can raise:
`keyError` for a missing dict key (`NotFound` in the spec's taxonomy) and
`valueError` for `list.remove` on an absent element or the explicit
`raise ValueError` in `add_comment` (`InvalidInput` in the taxonomy). -/
inductive PyExn where
  | keyError : PyExn
  | valueError : PyExn
deriving DecidableEq

/-- dictGet? models Python `d[k]` read / `k in d` test on an
insertion-ordered `dict`, embedded as an association list. -/
def dictGet? (m : List (String × α)) (k : String) : Option α :=
  match m with
  | [] => none
  | (k', v) :: rest => if k' = k then some v else dictGet? rest k

/-- dictContains models Python `k in d`. -/
def dictContains (m : List (String × α)) (k : String) : Bool :=
  (dictGet? m k).isSome

/-- dictInsert models Python `d[k] = v`: replace the value at the first
occurrence of the key in place, or append a new entry at the end (CPython
dicts keep insertion order and keep a key's position on update). -/
def dictInsert (m : List (String × α)) (k : String) (v : α) : List (String × α) :=
  match m with
  | [] => [(k, v)]
  | (k', v') :: rest =>
      if k' = k then (k', v) :: rest else (k', v') :: dictInsert rest k v

/-- dictErase models Python `del d[k]` (the caller has checked the key
exists): remove the first entry holding the key. -/
def dictErase (m : List (String × α)) (k : String) : List (String × α) :=
  match m with
  | [] => []
  | (k', v') :: rest =>
      if k' = k then rest else (k', v') :: dictErase rest k

/-- dictValues models Python `d.values()` in insertion order. -/
def dictValues (m : List (String × α)) : List α :=
  m.map (fun e => e.2)

/-- dictKeysNodup states that the association list has pairwise distinct
keys, which holds for every list that embeds an actual Python dict. -/
def dictKeysNodup (m : List (String × α)) : Prop :=
  (m.map (fun e => e.1)).Nodup

/-- pyTrunc models Python `int()` applied to a float: truncation toward
zero. -/
def pyTrunc (q : ℚ) : ℤ :=
  if 0 ≤ q then ⌊q⌋ else ⌈q⌉

/-- PostMetadata embeds the pydantic model of the same name from
`data_models.py` (all metadata of a single blog post). -/
structure PostMetadata where
  title : String
  abstract : String
  link : String
  created_timestamp : ℚ
  catagory : String
  tags : List String
  comments : List String
  post_id : String
deriving DecidableEq

/-- CommentData embeds the pydantic model of the same name from
`data_models.py` (all data of a single comment). -/
structure CommentData where
  name : String
  content : String
  contact_address : String
  created_timestamp : ℚ
  ip_address : String
  comment_id : String
  post_id : String
  display : Bool
deriving DecidableEq

/-- DisplayCommentData embeds the public-safe projection of a comment:
only name, content and the timestamp truncated to whole seconds. -/
structure DisplayCommentData where
  name : String
  content : String
  created_timestamp : ℤ
deriving DecidableEq

/-- BlogData embeds the full persisted snapshot: the posts map and the
comments map. -/
structure BlogData where
  posts : List (String × PostMetadata)
  comments : List (String × CommentData)
deriving DecidableEq

/-- Lablog embeds the in-memory blog store of `lablog.py`: the two
insertion-ordered maps `posts` and `comments`. -/
structure Lablog where
  posts : List (String × PostMetadata)
  comments : List (String × CommentData)
deriving DecidableEq

/-- emptyLablog is the state `Lablog.__init__` creates: two empty maps. -/
def emptyLablog : Lablog := ⟨[], []⟩

/-- descByTimestamp is the comparator of `c.posts.sort(key=..., reverse=True)`:
newest first. -/
def descByTimestamp (a b : PostMetadata) : Bool :=
  decide (b.created_timestamp ≤ a.created_timestamp)

/-- ascCommentTimestamp is the comparator of the ascending comment sorts. -/
def ascCommentTimestamp (a b : CommentData) : Bool :=
  decide (a.created_timestamp ≤ b.created_timestamp)

/-- ascDisplayTimestamp is the comparator of the ascending sort in
`get_comments_for_display` (on the truncated timestamps). -/
def ascDisplayTimestamp (a b : DisplayCommentData) : Bool :=
  decide (a.created_timestamp ≤ b.created_timestamp)

/-- insertSortedBy inserts an element into an already sorted list, in
front of the first element it may precede.  Together with sortBy below
this is a stable sort: elements that compare equal keep their original
relative order, exactly like the stable CPython `list.sort`. -/
def insertSortedBy (le : α → α → Bool) (a : α) : List α → List α
  | [] => [a]
  | b :: l => if le a b then a :: b :: l else b :: insertSortedBy le a l

/-- sortBy embeds Python `list.sort(key=...)` (a stable sort) for a
comparator `le a b` meaning "a may come before b". -/
def sortBy (le : α → α → Bool) : List α → List α
  | [] => []
  | a :: l => insertSortedBy le a (sortBy le l)

/-- Lablog.add_post embeds `Lablog.add_post`; the uuid4 result is the
explicit `post_id` argument and `time.time()` is the explicit `now`. -/
def Lablog.add_post (s : Lablog) (post_id : String)
    (title abstract link : String)
    (created_timestamp : Option ℚ) (now : ℚ)
    (catagory : Option String) (tags : Option (List String)) : Lablog × String :=
  let post : PostMetadata :=
    { title := title
      abstract := abstract
      link := link
      created_timestamp := created_timestamp.getD now
      catagory := catagory.getD "Miscellaneous"
      tags := tags.getD []
      comments := []
      post_id := post_id }
  (⟨dictInsert s.posts post_id post, s.comments⟩, post_id)

/-- PostPatch gathers the optional arguments of `Lablog.modify_post`. -/
structure PostPatch where
  title : Option String := none
  abstract : Option String := none
  link : Option String := none
  created_timestamp : Option ℚ := none
  catagory : Option String := none
  tags : Option (List String) := none

/-- PostPatch.isNone holds when no optional field is supplied. -/
def PostPatch.isNone (a : PostPatch) : Prop :=
  a.title = none ∧ a.abstract = none ∧ a.link = none ∧
  a.created_timestamp = none ∧ a.catagory = none ∧ a.tags = none

instance (a : PostPatch) : Decidable a.isNone := by
  unfold PostPatch.isNone; infer_instance

/-- PostPatch.apply performs the six conditional field writes of
`modify_post` on a post that is present in the map. -/
def PostPatch.apply (a : PostPatch) (p : PostMetadata) : PostMetadata :=
  { p with
    title := a.title.getD p.title
    abstract := a.abstract.getD p.abstract
    link := a.link.getD p.link
    created_timestamp := a.created_timestamp.getD p.created_timestamp
    catagory := a.catagory.getD p.catagory
    tags := a.tags.getD p.tags }

/-- Lablog.modify_post embeds `Lablog.modify_post`.  Each supplied field
triggers a `self.posts[post_id]` access, so when the id is absent and at
least one field is supplied the first access raises `KeyError` before any
mutation; when no field is supplied nothing runs and nothing is raised. -/
def Lablog.modify_post (s : Lablog) (post_id : String) (a : PostPatch) :
    Except PyExn Lablog :=
  if a.isNone then .ok s
  else
    match dictGet? s.posts post_id with
    | none => .error .keyError
    | some p => .ok ⟨dictInsert s.posts post_id (a.apply p), s.comments⟩

/-- GetPostsQuery gathers the optional arguments of `Lablog.get_posts`. -/
structure GetPostsQuery where
  post_id : Option String := none
  post_id_list : Option (List String) := none
  catagory : Option String := none
  tag : Option String := none
  tags : Option (List String) := none
  timestamp_start : Option ℚ := none
  timestamp_stop : Option ℚ := none

/-- applyFilters embeds `PostFilter.apply_filters`: the conjunction of all
registered filter closures. -/
def applyFilters (fs : List (PostMetadata → Bool)) (p : PostMetadata) : Bool :=
  fs.all (fun f => f p)

/-- filtersOf embeds the filter-chain construction in `Lablog.get_posts`:
one closure per supplied criterion, and a supplied `post_id_list` or
`tags` adds a closure only when the list is nonempty. -/
def filtersOf (q : GetPostsQuery) : List (PostMetadata → Bool) :=
  (match q.post_id with
   | none => []
   | some pid => [fun p => p.post_id = pid]) ++
  (match q.post_id_list with
   | none => []
   | some l => if l.length > 0 then [fun p => p.post_id ∈ l] else []) ++
  (match q.catagory with
   | none => []
   | some c => [fun p => p.catagory = c]) ++
  (match q.tag with
   | none => []
   | some t => [fun p => t ∈ p.tags]) ++
  (match q.tags with
   | none => []
   | some l => if l.length > 0 then [fun p => l.all (fun t => t ∈ p.tags)] else []) ++
  (match q.timestamp_start with
   | none => []
   | some t => [fun p => t < p.created_timestamp]) ++
  (match q.timestamp_stop with
   | none => []
   | some t => [fun p => p.created_timestamp < t])

/-- Lablog.get_posts embeds `Lablog.get_posts`: filter every stored post
through the conjunction of the supplied criteria, then sort the matches by
`created_timestamp` descending. -/
def Lablog.get_posts (s : Lablog) (q : GetPostsQuery) : List PostMetadata :=
  sortBy descByTimestamp ((dictValues s.posts).filter (applyFilters (filtersOf q)))

/-- Lablog.add_comment embeds `Lablog.add_comment`; the uuid4 result is
the explicit `comment_id` argument.  The Python default `display=True`
belongs to the caller, so `display` is an explicit argument here. -/
def Lablog.add_comment (s : Lablog) (comment_id : String)
    (name content contact_address : String) (post_id : String)
    (created_timestamp : Option ℚ) (now : ℚ)
    (ip_address : Option String) (display : Bool) :
    Except PyExn (Lablog × String) :=
  if dictContains s.posts post_id then
    match dictGet? s.posts post_id with
    | none => .error .keyError
    | some p =>
      let comment : CommentData :=
        { name := name
          content := content
          contact_address := contact_address
          created_timestamp := created_timestamp.getD now
          ip_address := ip_address.getD "No IP info"
          comment_id := comment_id
          post_id := post_id
          display := display }
      .ok (⟨dictInsert s.posts post_id { p with comments := p.comments ++ [comment_id] },
            dictInsert s.comments comment_id comment⟩, comment_id)
  else .error .valueError

/-- CommentPatch gathers the optional arguments of `Lablog.modify_comment`. -/
structure CommentPatch where
  name : Option String := none
  content : Option String := none
  contact_address : Option String := none
  created_timestamp : Option ℚ := none
  ip_address : Option String := none
  post_id : Option String := none
  display : Option Bool := none

/-- CommentPatch.isNone holds when no optional field is supplied. -/
def CommentPatch.isNone (a : CommentPatch) : Prop :=
  a.name = none ∧ a.content = none ∧ a.contact_address = none ∧
  a.created_timestamp = none ∧ a.ip_address = none ∧ a.post_id = none ∧
  a.display = none

instance (a : CommentPatch) : Decidable a.isNone := by
  unfold CommentPatch.isNone; infer_instance

/-- CommentPatch.apply performs the seven conditional field writes of
`modify_comment` on a comment that is present in the map.  Note that a
supplied `post_id` rewrites the comment's owner field without touching any
post's comment-id list. -/
def CommentPatch.apply (a : CommentPatch) (c : CommentData) : CommentData :=
  { c with
    name := a.name.getD c.name
    content := a.content.getD c.content
    contact_address := a.contact_address.getD c.contact_address
    created_timestamp := a.created_timestamp.getD c.created_timestamp
    ip_address := a.ip_address.getD c.ip_address
    post_id := a.post_id.getD c.post_id
    display := a.display.getD c.display }

/-- Lablog.modify_comment embeds `Lablog.modify_comment`: same access
pattern as `modify_post`, on the comments map. -/
def Lablog.modify_comment (s : Lablog) (comment_id : String) (a : CommentPatch) :
    Except PyExn Lablog :=
  if a.isNone then .ok s
  else
    match dictGet? s.comments comment_id with
    | none => .error .keyError
    | some c => .ok ⟨s.posts, dictInsert s.comments comment_id (a.apply c)⟩

/-- Lablog.get_comments embeds the privileged `Lablog.get_comments`:
collect the full records of every listed id that exists, sorted by
timestamp ascending. -/
def Lablog.get_comments (s : Lablog) (comment_id_list : List String) :
    List CommentData :=
  sortBy ascCommentTimestamp (comment_id_list.filterMap (fun cid => dictGet? s.comments cid))

/-- Lablog.get_comments_for_display embeds `Lablog.get_comments_for_display`:
keep only existing ids whose comment has `display = true`, project each to
the DisplayCommentData shape (timestamp truncated to whole seconds), and
sort ascending. -/
def Lablog.get_comments_for_display (s : Lablog) (comment_id_list : List String) :
    List DisplayCommentData :=
  sortBy ascDisplayTimestamp (comment_id_list.filterMap (fun cid =>
      match dictGet? s.comments cid with
      | none => none
      | some c =>
          if c.display then
            some { name := c.name
                   content := c.content
                   created_timestamp := pyTrunc c.created_timestamp }
          else none))

/-- Lablog.delete_comment embeds `Lablog.delete_comment`.  When the id
exists, `self.posts[post_id]` raises `KeyError` if the comment's owner is
not a post key, and `list.remove` raises `ValueError` if the id is not in
that post's list; both exceptions fire before any mutation.  When the id
does not exist the call is a silent no-op. -/
def Lablog.delete_comment (s : Lablog) (comment_id : String) :
    Except PyExn Lablog :=
  match dictGet? s.comments comment_id with
  | none => .ok s
  | some c =>
      match dictGet? s.posts c.post_id with
      | none => .error .keyError
      | some p =>
          if comment_id ∈ p.comments then
            .ok ⟨dictInsert s.posts c.post_id { p with comments := p.comments.erase comment_id },
                 dictErase s.comments comment_id⟩
          else .error .valueError

/-- Lablog.get_management_data embeds `Lablog.get_management_data`. -/
def Lablog.get_management_data (s : Lablog) : BlogData :=
  ⟨s.posts, s.comments⟩

/-- JValue is the JSON abstract syntax tree the serialization layer
targets.  `Lablog.serialize` renders this tree as indented text through
the json library; the textual rendering and parsing are the runtime's
json/pydantic code, so the embedding works at the tree level. -/
inductive JValue where
  | jnull : JValue
  | jbool : Bool → JValue
  | jnum : ℚ → JValue
  | jstr : String → JValue
  | jarr : List JValue → JValue
  | jobj : List (String × JValue) → JValue

/-- encodeStringList encodes a JSON array of strings. -/
def encodeStringList (l : List String) : JValue :=
  .jarr (l.map (fun t => .jstr t))

/-- encodePost encodes one PostMetadata record with its pydantic field
order. -/
def encodePost (p : PostMetadata) : JValue :=
  .jobj [("title", .jstr p.title),
         ("abstract", .jstr p.abstract),
         ("link", .jstr p.link),
         ("created_timestamp", .jnum p.created_timestamp),
         ("catagory", .jstr p.catagory),
         ("tags", encodeStringList p.tags),
         ("comments", encodeStringList p.comments),
         ("post_id", .jstr p.post_id)]

/-- encodeComment encodes one CommentData record with its pydantic field
order. -/
def encodeComment (c : CommentData) : JValue :=
  .jobj [("name", .jstr c.name),
         ("content", .jstr c.content),
         ("contact_address", .jstr c.contact_address),
         ("created_timestamp", .jnum c.created_timestamp),
         ("ip_address", .jstr c.ip_address),
         ("comment_id", .jstr c.comment_id),
         ("post_id", .jstr c.post_id),
         ("display", .jbool c.display)]

/-- Lablog.serialize embeds `Lablog.serialize`: build the full BlogData
snapshot and dump it to JSON (every field of these models is required,
so `exclude_none` removes nothing). -/
def Lablog.serialize (s : Lablog) : JValue :=
  .jobj [("posts", .jobj (s.posts.map (fun e => (e.1, encodePost e.2)))),
         ("comments", .jobj (s.comments.map (fun e => (e.1, encodeComment e.2))))]

/-- asStr reads a JSON string. -/
def asStr : JValue → Option String
  | .jstr v => some v
  | _ => none

/-- asNum reads a JSON number. -/
def asNum : JValue → Option ℚ
  | .jnum v => some v
  | _ => none

/-- asBool reads a JSON boolean. -/
def asBool : JValue → Option Bool
  | .jbool v => some v
  | _ => none

/-- decodeStringList reads a JSON array of strings. -/
def decodeStringList : JValue → Option (List String)
  | .jarr l => l.mapM asStr
  | _ => none

/-- jfield looks a field up in a JSON object by name, as pydantic does
when validating a parsed dict. -/
def jfield (v : JValue) (k : String) : Option JValue :=
  match v with
  | .jobj fields => List.lookup k fields
  | _ => none

/-- decodePost validates one post record, as pydantic's
`PostMetadata(**fields)` does. -/
def decodePost (v : JValue) : Option PostMetadata := do
  let title ← jfield v "title" >>= asStr
  let abstract ← jfield v "abstract" >>= asStr
  let link ← jfield v "link" >>= asStr
  let created_timestamp ← jfield v "created_timestamp" >>= asNum
  let catagory ← jfield v "catagory" >>= asStr
  let tags ← jfield v "tags" >>= decodeStringList
  let comments ← jfield v "comments" >>= decodeStringList
  let post_id ← jfield v "post_id" >>= asStr
  pure { title := title, abstract := abstract, link := link,
         created_timestamp := created_timestamp, catagory := catagory,
         tags := tags, comments := comments, post_id := post_id }

/-- decodeComment validates one comment record, as pydantic's
`CommentData(**fields)` does. -/
def decodeComment (v : JValue) : Option CommentData := do
  let name ← jfield v "name" >>= asStr
  let content ← jfield v "content" >>= asStr
  let contact_address ← jfield v "contact_address" >>= asStr
  let created_timestamp ← jfield v "created_timestamp" >>= asNum
  let ip_address ← jfield v "ip_address" >>= asStr
  let comment_id ← jfield v "comment_id" >>= asStr
  let post_id ← jfield v "post_id" >>= asStr
  let display ← jfield v "display" >>= asBool
  pure { name := name, content := content, contact_address := contact_address,
         created_timestamp := created_timestamp, ip_address := ip_address,
         comment_id := comment_id, post_id := post_id, display := display }

/-- decodeMap validates a JSON object whose values are records, keeping
the key order of the file, as pydantic does for `dict[str, X]`. -/
def decodeMap (dec : JValue → Option α) : JValue → Option (List (String × α))
  | .jobj fields => fields.mapM (fun e => (dec e.2).map (fun r => (e.1, r)))
  | _ => none

/-- Lablog.load_from_file embeds `json.loads` + `BlogData(**r)` +
`Lablog.load` applied to an already-parsed JSON tree: validate the two
maps and replace the store's content wholesale. -/
def Lablog.load_from_file (v : JValue) : Option Lablog := do
  let posts ← jfield v "posts" >>= decodeMap decodePost
  let comments ← jfield v "comments" >>= decodeMap decodeComment
  pure ⟨posts, comments⟩

/-- ContentHash models `Lablog.get_data_hash`.  The code hashes the
serialized snapshot with SHA-256 and compares hashes only for equality;
since the serialization is deterministic and injective on store content
(proved below from the decode round trip), hash equality coincides with
snapshot equality up to SHA-256 collisions, which the code ignores by
design.  The fingerprint is therefore embedded as the snapshot itself. -/
abbrev ContentHash := BlogData

/-- Lablog.get_data_hash embeds `Lablog.get_data_hash` under the
fingerprint abstraction above. -/
def Lablog.get_data_hash (s : Lablog) : ContentHash :=
  ⟨s.posts, s.comments⟩

/-- DBManagerState embeds the mutable state of `LablogDatabaseManager`
that `save_database` touches: the last-saved hash (`""` initially,
embedded as `none`) and the disk.  The disk is embedded as the sequence
of writes performed (`blogdata.json` holds the last element); its length
counts the on-disk writes. -/
structure DBManagerState where
  data_hash : Option ContentHash
  disk : List JValue

/-- initialDBState is the manager's state right after `__init__`. -/
def initialDBState : DBManagerState := ⟨none, []⟩

/-- save_database embeds `LablogDatabaseManager.save_database`: with
`check_hash` set, skip the write when the current fingerprint equals the
last-saved one; otherwise serialize to disk and record the new
fingerprint. -/
def save_database (st : DBManagerState) (s : Lablog) (check_hash : Bool) :
    DBManagerState :=
  if check_hash ∧ some s.get_data_hash = st.data_hash then st
  else ⟨some s.get_data_hash, st.disk ++ [s.serialize]⟩

/-- RateLedger embeds the module-level `rate_limit_data` defaultdict of
`main.py`: client host → recorded submission timestamps. -/
abbrev RateLedger := List (String × List ℚ)

/-- ledgerGet models `defaultdict(list)` reads: a missing host reads as
the empty list. -/
def ledgerGet (led : RateLedger) (host : String) : List ℚ :=
  (dictGet? led host).getD []

/-- is_rate_limited embeds `is_rate_limited` of `main.py` with its default
limit 5 and period 30 minutes (1800 seconds): prune entries older than the
window, report limited without recording when at least 5 remain, otherwise
record `now` and report not limited. -/
def is_rate_limited (led : RateLedger) (host : String) (now : ℚ) :
    Bool × RateLedger :=
  let kept := (ledgerGet led host).filter (fun t => decide (now - t < 1800))
  if 5 ≤ kept.length then (true, dictInsert led host kept)
  else (false, dictInsert led host (kept ++ [now]))

/-- rlChain folds a sequence of checks for one host through the rate
limiter, collecting the verdicts. -/
def rlChain (host : String) (led : RateLedger) : List ℚ → List Bool × RateLedger
  | [] => ([], led)
  | t :: ts =>
      let r := is_rate_limited led host t
      let rest := rlChain host r.2 ts
      (r.1 :: rest.1, rest.2)

/-- is_spam embeds `is_spam` of `main.py`: the lowercased content contains
some configured keyword as a substring. -/
def is_spam (spam_keywords : List String) (content : String) : Bool :=
  spam_keywords.any (fun kw => decide (kw.data <:+: content.toLower.data))

/-- HTTPErr models the HTTP error responses the public comment endpoint
can produce, plus a propagated store exception (which FastAPI would
surface as a generic server error). -/
inductive HTTPErr where
  | tooManyRequests : HTTPErr
  | badRequest : HTTPErr
  | storeExn : PyExn → HTTPErr
deriving DecidableEq

/-- add_comment_for_post embeds the public `POST /comments/{post_id}`
handler of `main.py`: rate-limit check, spam check, then
`lablog.add_comment(..., ip_address=client_host, display=False)`. -/
def add_comment_for_post (led : RateLedger) (s : Lablog)
    (post_id : String) (name content contact_address : String)
    (client_host : String) (now : ℚ) (spam_keywords : List String)
    (comment_id : String) : Except HTTPErr (RateLedger × Lablog × String) :=
  let r := is_rate_limited led client_host now
  if r.1 then .error .tooManyRequests
  else if is_spam spam_keywords content then .error .badRequest
  else
    match s.add_comment comment_id name content contact_address post_id
        none now (some client_host) false with
    | .error e => .error (.storeExn e)
    | .ok (s', cid) => .ok (r.2, s', cid)

/-- StoreInvariant is the spec's referential-integrity invariant: every id
in any post's comments list is a key of the comments map and that
comment's `post_id` equals the post's key. -/
def StoreInvariant (s : Lablog) : Prop :=
  ∀ e ∈ s.posts, ∀ cid ∈ e.2.comments,
    ∃ c, dictGet? s.comments cid = some c ∧ c.post_id = e.1

/-- Reachable describes the store states reachable from the empty store
through the mutating operations, with uuid4 freshness as a hypothesis on
generated ids; failed operations raise before mutating and so produce no
new state. -/
inductive Reachable : Lablog → Prop where
  | empty : Reachable emptyLablog
  | add_post {s : Lablog} (pid title abstract link : String)
      (cts : Option ℚ) (now : ℚ) (cat : Option String) (tags : Option (List String)) :
      Reachable s → dictContains s.posts pid = false →
      Reachable (s.add_post pid title abstract link cts now cat tags).1
  | modify_post {s s' : Lablog} (pid : String) (a : PostPatch) :
      Reachable s → s.modify_post pid a = .ok s' → Reachable s'
  | add_comment {s s' : Lablog} (cid name content addr pid : String)
      (cts : Option ℚ) (now : ℚ) (ip : Option String) (display : Bool) :
      Reachable s → dictContains s.comments cid = false →
      s.add_comment cid name content addr pid cts now ip display = .ok (s', cid) →
      Reachable s'
  | modify_comment {s s' : Lablog} (cid : String) (a : CommentPatch) :
      Reachable s → s.modify_comment cid a = .ok s' → Reachable s'
  | delete_comment {s s' : Lablog} (cid : String) :
      Reachable s → s.delete_comment cid = .ok s' → Reachable s'

/-- ReachableNR describes the states reachable when `modify_comment` is
never given a `post_id` (no owner reassignment); the other steps are the
same as in `Reachable`. -/
inductive ReachableNR : Lablog → Prop where
  | empty : ReachableNR emptyLablog
  | add_post {s : Lablog} (pid title abstract link : String)
      (cts : Option ℚ) (now : ℚ) (cat : Option String) (tags : Option (List String)) :
      ReachableNR s → dictContains s.posts pid = false →
      ReachableNR (s.add_post pid title abstract link cts now cat tags).1
  | modify_post {s s' : Lablog} (pid : String) (a : PostPatch) :
      ReachableNR s → s.modify_post pid a = .ok s' → ReachableNR s'
  | add_comment {s s' : Lablog} (cid name content addr pid : String)
      (cts : Option ℚ) (now : ℚ) (ip : Option String) (display : Bool) :
      ReachableNR s → dictContains s.comments cid = false →
      s.add_comment cid name content addr pid cts now ip display = .ok (s', cid) →
      ReachableNR s'
  | modify_comment {s s' : Lablog} (cid : String) (a : CommentPatch) :
      ReachableNR s → a.post_id = none → s.modify_comment cid a = .ok s' →
      ReachableNR s'
  | delete_comment {s s' : Lablog} (cid : String) :
      ReachableNR s → s.delete_comment cid = .ok s' → ReachableNR s'

/-- GoodStore is the inductive strengthening used to prove the
referential-integrity invariant: unique keys in both maps (true of every
embedded Python dict), duplicate-free per-post comment lists, and the
invariant itself. -/
def GoodStore (s : Lablog) : Prop :=
  dictKeysNodup s.posts ∧ dictKeysNodup s.comments ∧
  (∀ e ∈ s.posts, e.2.comments.Nodup) ∧ StoreInvariant s

/-- specConjunctionC3 renders the claim's words for `get_posts`: the
conjunction of all supplied criteria, where a supplied `post_id_list`
constrains membership in that list (even when the list is empty) and a
supplied `tags` requires all its tags (even when empty, vacuously). -/
def specConjunctionC3 (q : GetPostsQuery) (p : PostMetadata) : Bool :=
  (match q.post_id with
   | none => true
   | some pid => decide (p.post_id = pid)) &&
  (match q.post_id_list with
   | none => true
   | some l => decide (p.post_id ∈ l)) &&
  (match q.catagory with
   | none => true
   | some c => decide (p.catagory = c)) &&
  (match q.tag with
   | none => true
   | some t => decide (t ∈ p.tags)) &&
  (match q.tags with
   | none => true
   | some l => l.all (fun t => decide (t ∈ p.tags))) &&
  (match q.timestamp_start with
   | none => true
   | some t => decide (t < p.created_timestamp)) &&
  (match q.timestamp_stop with
   | none => true
   | some t => decide (p.created_timestamp < t))

/-- effMatchC3 is the amended criterion semantics, matching the code: a
supplied but empty `post_id_list` or `tags` imposes no constraint; all
other supplied criteria constrain conjunctively. -/
def effMatchC3 (q : GetPostsQuery) (p : PostMetadata) : Bool :=
  (match q.post_id with
   | none => true
   | some pid => decide (p.post_id = pid)) &&
  (match q.post_id_list with
   | none => true
   | some l => if l.length > 0 then decide (p.post_id ∈ l) else true) &&
  (match q.catagory with
   | none => true
   | some c => decide (p.catagory = c)) &&
  (match q.tag with
   | none => true
   | some t => decide (t ∈ p.tags)) &&
  (match q.tags with
   | none => true
   | some l => if l.length > 0 then l.all (fun t => decide (t ∈ p.tags)) else true) &&
  (match q.timestamp_start with
   | none => true
   | some t => decide (t < p.created_timestamp)) &&
  (match q.timestamp_stop with
   | none => true
   | some t => decide (p.created_timestamp < t))

/-- samplePost1 is a concrete post used by the counterexamples and
witnesses. -/
def samplePost1 : PostMetadata :=
  { title := "t1", abstract := "a1", link := "l1", created_timestamp := 100,
    catagory := "tech", tags := ["x"], comments := [], post_id := "p1" }

/-- sampleStore1 holds exactly samplePost1 and no comment. -/
def sampleStore1 : Lablog := ⟨[("p1", samplePost1)], []⟩

/-- emptyListQuery supplies only `post_id_list = []`, the query the C3
counterexample evaluates. -/
def emptyListQuery : GetPostsQuery := { post_id_list := some [] }

/-- danglingComment is a comment whose `post_id` refers to no stored
post. -/
def danglingComment : CommentData :=
  { name := "n", content := "c", contact_address := "e@x", created_timestamp := 50,
    ip_address := "No IP info", comment_id := "c1", post_id := "p9", display := true }

/-- danglingStore holds samplePost1 and danglingComment: the comment map
entry "c1" points at the nonexistent post "p9" (the state
`modify_comment` can produce by rewriting `post_id`). -/
def danglingStore : Lablog := ⟨[("p1", samplePost1)], [("c1", danglingComment)]⟩

/-- badPostC1 is the post "p1" as it stands after add_post and
add_comment "c1". -/
def badPostC1 : PostMetadata :=
  { title := "t1", abstract := "a1", link := "l1", created_timestamp := 100,
    catagory := "Miscellaneous", tags := [], comments := ["c1"], post_id := "p1" }

/-- badCommentC1 is the comment "c1" after modify_comment rewrote its
`post_id` to "p2". -/
def badCommentC1 : CommentData :=
  { name := "n", content := "hello", contact_address := "e@x",
    created_timestamp := 50, ip_address := "No IP info", comment_id := "c1",
    post_id := "p2", display := true }

/-- midStoreC1 is the store after add_post "p1" and add_comment "c1",
before the owner rewrite. -/
def midStoreC1 : Lablog :=
  ⟨[("p1", badPostC1)],
   [("c1", { name := "n", content := "hello", contact_address := "e@x",
             created_timestamp := 50, ip_address := "No IP info", comment_id := "c1",
             post_id := "p1", display := true })]⟩

/-- badReachedStore is the store obtained from the empty store by
add_post "p1", add_comment "c1" on "p1", then modify_comment "c1" with
post_id := "p2": post "p1" still lists "c1" but the comment now claims
owner "p2". -/
def badReachedStore : Lablog :=
  ⟨[("p1", badPostC1)], [("c1", badCommentC1)]⟩

/-- newComment names the CommentData record `add_comment` constructs, for
use in theorem statements. -/
def newComment (cid name content addr : String) (cts : Option ℚ) (now : ℚ)
    (ip : Option String) (pid : String) (display : Bool) : CommentData :=
  { name := name, content := content, contact_address := addr,
    created_timestamp := cts.getD now, ip_address := ip.getD "No IP info",
    comment_id := cid, post_id := pid, display := display }

theorem dictGet?_dictInsert_self (m : List (String × α)) (k : String) (v : α) :
    dictGet? (dictInsert m k v) k = some v := by
  induction m with
  | nil => simp [dictInsert, dictGet?]
  | cons e rest ih =>
      obtain ⟨a, b⟩ := e
      by_cases h : a = k
      · simp [dictInsert, dictGet?, h]
      · simp [dictInsert, dictGet?, h, ih]

theorem dictGet?_dictInsert_ne (m : List (String × α)) {k k' : String} (v : α)
    (h : k' ≠ k) : dictGet? (dictInsert m k v) k' = dictGet? m k' := by
  have h' : ¬ (k = k') := fun he => h he.symm
  induction m with
  | nil => simp [dictInsert, dictGet?, h']
  | cons e rest ih =>
      obtain ⟨a, b⟩ := e
      by_cases he : a = k
      · subst he
        simp [dictInsert, dictGet?, h']
      · by_cases he' : a = k'
        · simp [dictInsert, dictGet?, he, he', h, h']
        · simp [dictInsert, dictGet?, he, he', ih]

theorem dictGet?_dictErase_ne (m : List (String × α)) {k k' : String}
    (h : k' ≠ k) : dictGet? (dictErase m k) k' = dictGet? m k' := by
  have h' : ¬ (k = k') := fun he => h he.symm
  induction m with
  | nil => simp [dictErase]
  | cons e rest ih =>
      obtain ⟨a, b⟩ := e
      by_cases he : a = k
      · subst he
        simp [dictErase, dictGet?, h']
      · by_cases he' : a = k'
        · simp [dictErase, dictGet?, he, he', h, h']
        · simp [dictErase, dictGet?, he, he', ih]

theorem dictGet?_eq_none_iff (m : List (String × α)) (k : String) :
    dictGet? m k = none ↔ k ∉ m.map (fun e => e.1) := by
  induction m with
  | nil => simp [dictGet?]
  | cons e rest ih =>
      obtain ⟨a, b⟩ := e
      by_cases he : a = k
      · simp [dictGet?, he]
      · simp only [dictGet?, he, if_neg, not_false_iff, List.map_cons, List.mem_cons, ih]
        constructor
        · intro hk hc
          rcases hc with hc | hc
          · exact he hc.symm
          · exact hk hc
        · intro hk
          exact fun hc => hk (Or.inr hc)

theorem mem_of_dictGet?_eq_some {m : List (String × α)} {k : String} {v : α}
    (h : dictGet? m k = some v) : (k, v) ∈ m := by
  induction m with
  | nil => simp [dictGet?] at h
  | cons e rest ih =>
      obtain ⟨a, b⟩ := e
      by_cases he : a = k
      · subst he
        simp [dictGet?] at h
        subst h
        exact List.mem_cons_self _ _
      · simp [dictGet?, he] at h
        exact List.mem_cons_of_mem _ (ih h)

theorem dictGet?_of_mem {m : List (String × α)} {k : String} {v : α}
    (hnd : dictKeysNodup m) (h : (k, v) ∈ m) : dictGet? m k = some v := by
  induction m with
  | nil => simp at h
  | cons e rest ih =>
      obtain ⟨a, b⟩ := e
      unfold dictKeysNodup at hnd
      simp only [List.map_cons, List.nodup_cons] at hnd
      rcases List.mem_cons.mp h with h1 | h1
      · cases h1
        simp [dictGet?]
      · have hk : ¬ (a = k) := by
          intro he
          exact hnd.1 (he ▸ (List.mem_map.mpr ⟨(k, v), h1, rfl⟩))
        simp only [dictGet?, hk, if_neg, not_false_iff]
        exact ih hnd.2 h1

theorem mem_keys_dictInsert {m : List (String × α)} {k a : String} {v : α}
    (h : a ∈ (dictInsert m k v).map (fun e => e.1)) :
    a ∈ m.map (fun e => e.1) ∨ a = k := by
  induction m with
  | nil =>
      simp [dictInsert] at h
      right; exact h
  | cons e rest ih =>
      obtain ⟨x, y⟩ := e
      by_cases he : x = k
      · simp only [dictInsert, he, if_pos, List.map_cons, List.mem_cons] at h
        rcases h with h | h
        · left; simp [h, he]
        · left; simp only [List.map_cons, List.mem_cons]; right; exact h
      · simp only [dictInsert, he, if_neg, not_false_iff, List.map_cons, List.mem_cons] at h
        rcases h with h | h
        · left; simp only [List.map_cons, List.mem_cons]; left; exact h
        · rcases ih h with h1 | h1
          · left; simp only [List.map_cons, List.mem_cons]; right; exact h1
          · right; exact h1

theorem dictKeysNodup_dictInsert {m : List (String × α)} (k : String) (v : α)
    (hnd : dictKeysNodup m) : dictKeysNodup (dictInsert m k v) := by
  induction m with
  | nil => simp [dictInsert, dictKeysNodup]
  | cons e rest ih =>
      obtain ⟨a, b⟩ := e
      unfold dictKeysNodup at hnd ⊢
      simp only [List.map_cons, List.nodup_cons] at hnd
      by_cases he : a = k
      · subst he
        have hins : dictInsert ((a, b) :: rest) a v = (a, v) :: rest := by
          simp [dictInsert]
        rw [hins]
        simp only [List.map_cons, List.nodup_cons]
        exact hnd
      · simp only [dictInsert, if_neg he, List.map_cons, List.nodup_cons]
        refine ⟨?_, ih hnd.2⟩
        intro hmem
        rcases mem_keys_dictInsert hmem with h1 | h1
        · exact hnd.1 h1
        · exact he h1

theorem mem_keys_dictErase {m : List (String × α)} {k a : String}
    (h : a ∈ (dictErase m k).map (fun e => e.1)) : a ∈ m.map (fun e => e.1) := by
  induction m with
  | nil => simp [dictErase] at h
  | cons e rest ih =>
      obtain ⟨x, y⟩ := e
      by_cases he : x = k
      · simp only [dictErase, if_pos he] at h
        simp only [List.map_cons, List.mem_cons]
        right; exact h
      · simp only [dictErase, if_neg he, List.map_cons, List.mem_cons] at h
        simp only [List.map_cons, List.mem_cons]
        rcases h with h | h
        · left; exact h
        · right; exact ih h

theorem dictKeysNodup_dictErase {m : List (String × α)} (k : String)
    (hnd : dictKeysNodup m) : dictKeysNodup (dictErase m k) := by
  induction m with
  | nil => simp [dictErase, dictKeysNodup]
  | cons e rest ih =>
      obtain ⟨x, y⟩ := e
      unfold dictKeysNodup at hnd ⊢
      simp only [List.map_cons, List.nodup_cons] at hnd
      by_cases he : x = k
      · simp only [dictErase, if_pos he]
        exact hnd.2
      · simp only [dictErase, if_neg he, List.map_cons, List.nodup_cons]
        exact ⟨fun hm => hnd.1 (mem_keys_dictErase hm), ih hnd.2⟩

theorem dictGet?_dictErase_self {m : List (String × α)} {k : String}
    (hnd : dictKeysNodup m) : dictGet? (dictErase m k) k = none := by
  induction m with
  | nil => simp [dictErase, dictGet?]
  | cons e rest ih =>
      obtain ⟨x, y⟩ := e
      unfold dictKeysNodup at hnd
      simp only [List.map_cons, List.nodup_cons] at hnd
      by_cases he : x = k
      · simp only [dictErase, if_pos he]
        exact (dictGet?_eq_none_iff rest k).mpr (he ▸ hnd.1)
      · simp only [dictErase, if_neg he, dictGet?, if_neg he]
        exact ih hnd.2

theorem dictInsert_eq_append {m : List (String × α)} {k : String} (v : α)
    (h : dictGet? m k = none) : dictInsert m k v = m ++ [(k, v)] := by
  induction m with
  | nil => simp [dictInsert]
  | cons e rest ih =>
      obtain ⟨x, y⟩ := e
      by_cases he : x = k
      · simp [dictGet?, he] at h
      · simp only [dictGet?, if_neg he] at h
        simp [dictInsert, he, ih h]

theorem dictGet?_append_of_some {m l : List (String × α)} {k : String} {v : α}
    (h : dictGet? m k = some v) : dictGet? (m ++ l) k = some v := by
  induction m with
  | nil => simp [dictGet?] at h
  | cons e rest ih =>
      obtain ⟨x, y⟩ := e
      by_cases he : x = k
      · simp only [dictGet?, if_pos he] at h
        simp only [List.cons_append, dictGet?, if_pos he]
        exact h
      · simp only [dictGet?, if_neg he] at h
        simp only [List.cons_append, dictGet?, if_neg he]
        exact ih h

theorem dictGet?_append_of_none {m l : List (String × α)} {k : String}
    (h : dictGet? m k = none) : dictGet? (m ++ l) k = dictGet? l k := by
  induction m with
  | nil => simp
  | cons e rest ih =>
      obtain ⟨x, y⟩ := e
      by_cases he : x = k
      · simp [dictGet?, he] at h
      · simp only [dictGet?, if_neg he] at h
        simp only [List.cons_append, dictGet?, if_neg he]
        exact ih h

theorem mem_dictInsert_elim {m : List (String × α)} {k : String} {v : α}
    {e : String × α} (hnd : dictKeysNodup m) (h : e ∈ dictInsert m k v) :
    e = (k, v) ∨ (e ∈ m ∧ e.1 ≠ k) := by
  induction m with
  | nil =>
      simp [dictInsert] at h
      left; exact h
  | cons hd rest ih =>
      obtain ⟨x, y⟩ := hd
      unfold dictKeysNodup at hnd
      simp only [List.map_cons, List.nodup_cons] at hnd
      by_cases hh : x = k
      · subst hh
        simp only [dictInsert, if_pos rfl] at h
        rcases List.mem_cons.mp h with h1 | h1
        · left; exact h1
        · right
          refine ⟨List.mem_cons_of_mem _ h1, ?_⟩
          intro hek
          exact hnd.1 (hek ▸ (List.mem_map.mpr ⟨e, h1, rfl⟩))
      · simp only [dictInsert, if_neg hh] at h
        rcases List.mem_cons.mp h with h1 | h1
        · right
          subst h1
          exact ⟨List.mem_cons_self _ _, hh⟩
        · rcases ih hnd.2 h1 with h2 | h2
          · left; exact h2
          · right; exact ⟨List.mem_cons_of_mem _ h2.1, h2.2⟩

theorem self_mem_dictInsert (m : List (String × α)) (k : String) (v : α) :
    (k, v) ∈ dictInsert m k v :=
  mem_of_dictGet?_eq_some (dictGet?_dictInsert_self m k v)

theorem mem_dictInsert_of_mem {m : List (String × α)} {k : String} (v : α)
    {e : String × α} (he : e ∈ m) (hne : e.1 ≠ k) : e ∈ dictInsert m k v := by
  induction m with
  | nil => simp at he
  | cons hd rest ih =>
      obtain ⟨x, y⟩ := hd
      by_cases hh : x = k
      · simp only [dictInsert, if_pos hh]
        rcases List.mem_cons.mp he with h1 | h1
        · exfalso
          apply hne
          rw [h1, hh]
        · exact List.mem_cons_of_mem _ h1
      · simp only [dictInsert, if_neg hh]
        rcases List.mem_cons.mp he with h1 | h1
        · exact h1 ▸ List.mem_cons_self _ _
        · exact List.mem_cons_of_mem _ (ih h1)

theorem dictContains_eq_false_iff (m : List (String × α)) (k : String) :
    dictContains m k = false ↔ dictGet? m k = none := by
  unfold dictContains
  cases dictGet? m k <;> simp

theorem goodStore_empty : GoodStore emptyLablog := by
  refine ⟨by simp [emptyLablog, dictKeysNodup], by simp [emptyLablog, dictKeysNodup], ?_, ?_⟩
  · intro e he
    simp [emptyLablog] at he
  · intro e he
    simp [emptyLablog] at he

theorem goodStore_add_post {s : Lablog} (pid title abstract link : String)
    (cts : Option ℚ) (now : ℚ) (cat : Option String) (tags : Option (List String))
    (hg : GoodStore s) :
    GoodStore (s.add_post pid title abstract link cts now cat tags).1 := by
  obtain ⟨hp, hc, hl, hi⟩ := hg
  refine ⟨dictKeysNodup_dictInsert _ _ hp, hc, ?_, ?_⟩
  · intro e he
    rcases mem_dictInsert_elim hp he with h1 | h1
    · subst h1
      simp [Lablog.add_post]
    · exact hl e h1.1
  · intro e he cid hcid
    rcases mem_dictInsert_elim hp he with h1 | h1
    · subst h1
      simp [Lablog.add_post] at hcid
    · exact hi e h1.1 cid hcid

theorem goodStore_modify_post {s s' : Lablog} (pid : String) (a : PostPatch)
    (hg : GoodStore s) (h : s.modify_post pid a = .ok s') : GoodStore s' := by
  obtain ⟨hp, hc, hl, hi⟩ := hg
  unfold Lablog.modify_post at h
  by_cases hn : a.isNone
  · simp only [hn, if_pos] at h
    cases h
    exact ⟨hp, hc, hl, hi⟩
  · simp only [hn, if_neg, not_false_iff] at h
    cases hq : dictGet? s.posts pid with
    | none => rw [hq] at h; cases h
    | some p =>
      rw [hq] at h
      cases h
      refine ⟨dictKeysNodup_dictInsert _ _ hp, hc, ?_, ?_⟩
      · intro e he
        rcases mem_dictInsert_elim hp he with h1 | h1
        · subst h1
          exact hl (pid, p) (mem_of_dictGet?_eq_some hq)
        · exact hl e h1.1
      · intro e he cid hcid
        rcases mem_dictInsert_elim hp he with h1 | h1
        · subst h1
          exact hi (pid, p) (mem_of_dictGet?_eq_some hq) cid hcid
        · exact hi e h1.1 cid hcid

theorem goodStore_add_comment {s s' : Lablog} (cid name content addr pid : String)
    (cts : Option ℚ) (now : ℚ) (ip : Option String) (display : Bool)
    (hg : GoodStore s) (hfresh : dictContains s.comments cid = false)
    (h : s.add_comment cid name content addr pid cts now ip display = .ok (s', cid)) :
    GoodStore s' := by
  obtain ⟨hp, hc, hl, hi⟩ := hg
  have hcnone : dictGet? s.comments cid = none :=
    (dictContains_eq_false_iff _ _).mp hfresh
  unfold Lablog.add_comment at h
  by_cases hct : dictContains s.posts pid
  · simp only [hct, if_pos] at h
    cases hq : dictGet? s.posts pid with
    | none =>
        exfalso
        unfold dictContains at hct
        rw [hq] at hct
        simp at hct
    | some p =>
        rw [hq] at h
        simp only [Except.ok.injEq, Prod.mk.injEq] at h
        obtain ⟨hs', -⟩ := h
        subst hs'
        have happ : dictInsert s.comments cid
            ({ name := name, content := content, contact_address := addr,
               created_timestamp := cts.getD now, ip_address := ip.getD "No IP info",
               comment_id := cid, post_id := pid, display := display } : CommentData)
            = s.comments ++ [(cid,
              { name := name, content := content, contact_address := addr,
                created_timestamp := cts.getD now, ip_address := ip.getD "No IP info",
                comment_id := cid, post_id := pid, display := display })] :=
          dictInsert_eq_append _ hcnone
        have hcid_not_in : ∀ e ∈ s.posts, cid ∉ e.2.comments := by
          intro e he hmem
          obtain ⟨c, hcg, -⟩ := hi e he cid hmem
          rw [hcnone] at hcg
          cases hcg
        refine ⟨dictKeysNodup_dictInsert _ _ hp, dictKeysNodup_dictInsert _ _ hc, ?_, ?_⟩
        · intro e he
          rcases mem_dictInsert_elim hp he with h1 | h1
          · subst h1
            simp only []
            have : p.comments.Nodup := hl (pid, p) (mem_of_dictGet?_eq_some hq)
            simp [List.nodup_append, this, hcid_not_in (pid, p) (mem_of_dictGet?_eq_some hq)]
          · exact hl e h1.1
        · intro e he cid' hcid'
          rcases mem_dictInsert_elim hp he with h1 | h1
          · subst h1
            simp only [List.mem_append, List.mem_singleton] at hcid'
            rcases hcid' with hin | hEq
            · obtain ⟨c, hcg, hcp⟩ := hi (pid, p) (mem_of_dictGet?_eq_some hq) cid' hin
              refine ⟨c, ?_, hcp⟩
              rw [happ]
              exact dictGet?_append_of_some hcg
            · subst hEq
              exact ⟨_, dictGet?_dictInsert_self _ _ _, rfl⟩
          · obtain ⟨c, hcg, hcp⟩ := hi e h1.1 cid' hcid'
            refine ⟨c, ?_, hcp⟩
            rw [happ]
            exact dictGet?_append_of_some hcg
  · simp [hct] at h

theorem commentPatch_apply_post_id_of_none {a : CommentPatch} (h : a.post_id = none)
    (c : CommentData) : (a.apply c).post_id = c.post_id := by
  simp [CommentPatch.apply, h]

theorem goodStore_modify_comment_np {s s' : Lablog} (cid : String) (a : CommentPatch)
    (hg : GoodStore s) (hnp : a.post_id = none)
    (h : s.modify_comment cid a = .ok s') : GoodStore s' := by
  obtain ⟨hp, hc, hl, hi⟩ := hg
  unfold Lablog.modify_comment at h
  by_cases hn : a.isNone
  · simp only [hn, if_pos] at h
    cases h
    exact ⟨hp, hc, hl, hi⟩
  · simp only [hn, if_neg, not_false_iff] at h
    cases hq : dictGet? s.comments cid with
    | none => rw [hq] at h; cases h
    | some c =>
      rw [hq] at h
      cases h
      refine ⟨hp, dictKeysNodup_dictInsert _ _ hc, hl, ?_⟩
      intro e he cid' hcid'
      obtain ⟨c', hcg, hcp⟩ := hi e he cid' hcid'
      by_cases hcc : cid' = cid
      · subst hcc
        have hcc' : c' = c := by
          rw [hq] at hcg
          cases hcg
          rfl
        subst hcc'
        refine ⟨a.apply c', dictGet?_dictInsert_self _ _ _, ?_⟩
        rw [commentPatch_apply_post_id_of_none hnp]
        exact hcp
      · refine ⟨c', ?_, hcp⟩
        rw [dictGet?_dictInsert_ne _ _ hcc]
        exact hcg

theorem goodStore_delete_comment {s s' : Lablog} (cid : String)
    (hg : GoodStore s) (h : s.delete_comment cid = .ok s') : GoodStore s' := by
  obtain ⟨hp, hc, hl, hi⟩ := hg
  unfold Lablog.delete_comment at h
  split at h
  · cases h
    exact ⟨hp, hc, hl, hi⟩
  · rename_i c hq
    split at h
    · cases h
    · rename_i p hq2
      split at h
      · rename_i hmem
        cases h
        have hpmem : (c.post_id, p) ∈ s.posts := mem_of_dictGet?_eq_some hq2
        refine ⟨dictKeysNodup_dictInsert _ _ hp, dictKeysNodup_dictErase _ hc, ?_, ?_⟩
        · intro e he
          rcases mem_dictInsert_elim hp he with h1 | h1
          · subst h1
            exact (hl (c.post_id, p) hpmem).erase _
          · exact hl e h1.1
        · intro e he cid' hcid'
          rcases mem_dictInsert_elim hp he with h1 | h1
          · subst h1
            have hnd := hl (c.post_id, p) hpmem
            have hmem' := (List.Nodup.mem_erase_iff hnd).mp hcid'
            obtain ⟨c', hcg, hcp⟩ := hi (c.post_id, p) hpmem cid' hmem'.2
            refine ⟨c', ?_, hcp⟩
            rw [dictGet?_dictErase_ne _ hmem'.1]
            exact hcg
          · obtain ⟨c', hcg, hcp⟩ := hi e h1.1 cid' hcid'
            have hne : cid' ≠ cid := by
              intro hEq
              subst hEq
              rw [hq] at hcg
              cases hcg
              exact h1.2 hcp.symm
            refine ⟨c', ?_, hcp⟩
            rw [dictGet?_dictErase_ne _ hne]
            exact hcg
      · cases h

theorem goodStore_reachableNR {s : Lablog} (h : ReachableNR s) : GoodStore s := by
  induction h with
  | empty => exact goodStore_empty
  | add_post pid title abstract link cts now cat tags _ _ ih =>
      exact goodStore_add_post pid title abstract link cts now cat tags ih
  | modify_post pid a _ hok ih => exact goodStore_modify_post pid a ih hok
  | add_comment cid name content addr pid cts now ip display _ hfresh hok ih =>
      exact goodStore_add_comment cid name content addr pid cts now ip display ih hfresh hok
  | modify_comment cid a _ hnp hok ih =>
      exact goodStore_modify_comment_np cid a ih hnp hok
  | delete_comment cid _ hok ih => exact goodStore_delete_comment cid ih hok

/-- C1 (counterexample): the claim that referential integrity holds in
every reachable store state is false: the store reached by add_post "p1",
add_comment "c1", then modify_comment "c1" with post_id := "p2" is
reachable yet violates the invariant (post "p1" lists "c1" while the
comment's `post_id` is "p2"). -/
theorem C1_integrity_counterexample :
    Reachable badReachedStore ∧ ¬ StoreInvariant badReachedStore := by
  constructor
  · refine @Reachable.modify_comment midStoreC1 badReachedStore "c1" { post_id := some "p2" } ?_ (by rfl)
    refine @Reachable.add_comment (emptyLablog.add_post "p1" "t1" "a1" "l1" none 100 none none).1
        midStoreC1 "c1" "n" "hello" "e@x" "p1" (some 50) 0 none true ?_ (by rfl) (by rfl)
    exact Reachable.add_post "p1" "t1" "a1" "l1" none 100 none none Reachable.empty (by rfl)
  · intro hinv
    obtain ⟨c, hcg, hcp⟩ :=
      hinv ("p1", badPostC1) (by simp [badReachedStore]) "c1" (by simp [badPostC1])
    rw [show dictGet? badReachedStore.comments "c1" = some badCommentC1 from rfl] at hcg
    cases hcg
    exact absurd hcp (by decide)

/-- C1 (amended): referential integrity is an invariant of every store
state reachable without comment owner reassignment: add_post,
modify_post, add_comment, delete_comment and modify_comment without a
supplied `post_id` all preserve it from the empty store.  (modify_comment
given a new `post_id` can break it, see the counterexample.) -/
theorem C1_integrity_preserved_without_reassignment {s : Lablog}
    (h : ReachableNR s) : StoreInvariant s :=
  (goodStore_reachableNR h).2.2.2

/-- C1 witness: the amended theorem applied to the concrete reachable
store holding post "p1" and comment "c1". -/
theorem C1_integrity_preserved_without_reassignment_witness :
    StoreInvariant midStoreC1 :=
  C1_integrity_preserved_without_reassignment
    (@ReachableNR.add_comment (emptyLablog.add_post "p1" "t1" "a1" "l1" none 100 none none).1
      midStoreC1 "c1" "n" "hello" "e@x" "p1" (some 50) 0 none true
      (ReachableNR.add_post "p1" "t1" "a1" "l1" none 100 none none ReachableNR.empty (by rfl))
      (by rfl) (by rfl))

/-- C2: add_comment with a post_id absent from the posts map fails with
ValueError (the spec's InvalidInput) and, the model being functional,
leaves the store untouched; with an existing post_id and a fresh
comment_id it stores the new comment at the end of the comments map and
appends its id to the owning post's comments list, leaving every other
post and comment unchanged. -/
theorem C2_add_comment_existing_post (s : Lablog)
    (cid name content addr pid : String) (cts : Option ℚ) (now : ℚ)
    (ip : Option String) (display : Bool) :
    (dictContains s.posts pid = false →
      s.add_comment cid name content addr pid cts now ip display = .error .valueError) ∧
    (∀ p, dictGet? s.posts pid = some p → dictGet? s.comments cid = none →
      s.add_comment cid name content addr pid cts now ip display =
        .ok (⟨dictInsert s.posts pid { p with comments := p.comments ++ [cid] },
              s.comments ++ [(cid, newComment cid name content addr cts now ip pid display)]⟩,
             cid) ∧
      dictGet? (s.comments ++ [(cid, newComment cid name content addr cts now ip pid display)]) cid
        = some (newComment cid name content addr cts now ip pid display) ∧
      dictGet? (dictInsert s.posts pid { p with comments := p.comments ++ [cid] }) pid
        = some { p with comments := p.comments ++ [cid] } ∧
      (∀ k, k ≠ pid →
        dictGet? (dictInsert s.posts pid { p with comments := p.comments ++ [cid] }) k
          = dictGet? s.posts k) ∧
      (∀ k, k ≠ cid →
        dictGet? (s.comments ++ [(cid, newComment cid name content addr cts now ip pid display)]) k
          = dictGet? s.comments k)) := by
  constructor
  · intro h
    simp [Lablog.add_comment, h]
  · intro p hp hfresh
    have hct : dictContains s.posts pid = true := by
      unfold dictContains
      rw [hp]
      rfl
    refine ⟨?_, ?_, ?_, ?_, ?_⟩
    · simp only [Lablog.add_comment, hct, if_pos, hp]
      rw [dictInsert_eq_append _ hfresh]
      rfl
    · rw [dictGet?_append_of_none hfresh]
      simp [dictGet?]
    · exact dictGet?_dictInsert_self _ _ _
    · intro k hk
      exact dictGet?_dictInsert_ne _ _ hk
    · intro k hk
      cases hq : dictGet? s.comments k with
      | none =>
          rw [dictGet?_append_of_none hq]
          have hk' : ¬ (cid = k) := fun h => hk h.symm
          simp [dictGet?, hk']
      | some v => exact dictGet?_append_of_some hq

/-- C2 witness: both branches of the theorem evaluated at concrete
stores: an empty store rejects the comment, and sampleStore1 accepts it
with the documented effect. -/
theorem C2_add_comment_existing_post_witness :
    Lablog.add_comment emptyLablog "c1" "n" "t" "e" "p1" none 7 none true
      = .error .valueError ∧
    Lablog.add_comment sampleStore1 "c1" "n" "t" "e" "p1" none 7 none true
      = .ok (⟨dictInsert sampleStore1.posts "p1"
                { samplePost1 with comments := samplePost1.comments ++ ["c1"] },
              sampleStore1.comments ++ [("c1", newComment "c1" "n" "t" "e" none 7 none "p1" true)]⟩,
             "c1") := by
  constructor
  · exact (C2_add_comment_existing_post emptyLablog "c1" "n" "t" "e" "p1" none 7 none true).1
      (by rfl)
  · exact ((C2_add_comment_existing_post sampleStore1 "c1" "n" "t" "e" "p1" none 7 none true).2
      samplePost1 (by rfl) (by rfl)).1

/-- C4 (counterexample): modify_post with an absent post_id does not
always fail: when no optional field is supplied, none of the per-field
dict accesses runs, so the call returns silently even though "p1" is not
in the (empty) store. -/
theorem C4_modify_post_counterexample :
    dictContains emptyLablog.posts "p1" = false ∧
    Lablog.modify_post emptyLablog "p1" {} = .ok emptyLablog := by
  constructor
  · rfl
  · rfl

/-- C4 (amended): modify_post with a post_id absent from the posts map
fails with KeyError (the spec's NotFound) whenever at least one optional
field is supplied, leaving the store unchanged; when no field is supplied
it is a silent no-op that also leaves the store unchanged. -/
theorem C4_modify_post_absent_fails (s : Lablog) (pid : String) (a : PostPatch)
    (h : dictGet? s.posts pid = none) :
    (¬ a.isNone → s.modify_post pid a = .error .keyError) ∧
    (a.isNone → s.modify_post pid a = .ok s) := by
  constructor
  · intro hn
    simp [Lablog.modify_post, hn, h]
  · intro hn
    simp [Lablog.modify_post, hn]

/-- C4 witness: the amended theorem applied to the empty store with a
title-only patch (fails) and with the empty patch (no-op). -/
theorem C4_modify_post_absent_fails_witness :
    Lablog.modify_post emptyLablog "p1" { title := some "x" } = .error .keyError ∧
    Lablog.modify_post emptyLablog "p1" {} = .ok emptyLablog := by
  constructor
  · exact (C4_modify_post_absent_fails emptyLablog "p1" { title := some "x" } (by rfl)).1
      (by simp [PostPatch.isNone])
  · exact (C4_modify_post_absent_fails emptyLablog "p1" {} (by rfl)).2
      (by simp [PostPatch.isNone])

/-- C5 (counterexample): delete_comment on an existing comment does not
always remove it: in danglingStore the comment "c1" exists but its
`post_id` "p9" is no post key, so `self.posts[post_id]` raises KeyError
and nothing is deleted. -/
theorem C5_delete_comment_counterexample :
    dictContains danglingStore.comments "c1" = true ∧
    Lablog.delete_comment danglingStore "c1" = .error .keyError := by
  constructor
  · rfl
  · rfl

/-- C5 (amended): delete_comment on an existing comment whose `post_id`
is a post key and whose id occurs in that post's comments list removes
the id from the comments map and erases it from the owning post's list,
leaving every other post and comment unchanged; on a nonexistent id it is
a no-op.  (When the comment's owner is dangling or the id is missing from
the owner's list, the operation instead raises, per C10.) -/
theorem C5_delete_comment_removes_both_sides (s : Lablog) (cid : String) :
    (dictGet? s.comments cid = none → s.delete_comment cid = .ok s) ∧
    (∀ c p, dictGet? s.comments cid = some c → dictGet? s.posts c.post_id = some p →
      cid ∈ p.comments →
      s.delete_comment cid =
        .ok ⟨dictInsert s.posts c.post_id { p with comments := p.comments.erase cid },
             dictErase s.comments cid⟩ ∧
      (dictKeysNodup s.comments → dictGet? (dictErase s.comments cid) cid = none) ∧
      (∀ k, k ≠ cid → dictGet? (dictErase s.comments cid) k = dictGet? s.comments k) ∧
      dictGet? (dictInsert s.posts c.post_id { p with comments := p.comments.erase cid }) c.post_id
        = some { p with comments := p.comments.erase cid } ∧
      (∀ k, k ≠ c.post_id →
        dictGet? (dictInsert s.posts c.post_id { p with comments := p.comments.erase cid }) k
          = dictGet? s.posts k)) := by
  constructor
  · intro h
    simp [Lablog.delete_comment, h]
  · intro c p hc hp hmem
    refine ⟨?_, ?_, ?_, ?_, ?_⟩
    · simp [Lablog.delete_comment, hc, hp, hmem]
    · intro hnd
      exact dictGet?_dictErase_self hnd
    · intro k hk
      exact dictGet?_dictErase_ne _ hk
    · exact dictGet?_dictInsert_self _ _ _
    · intro k hk
      exact dictGet?_dictInsert_ne _ _ hk

/-- C5 witness: the amended theorem applied to midStoreC1 (deleting the
existing comment "c1" of post "p1") and, for the no-op branch, to the
empty store. -/
theorem C5_delete_comment_removes_both_sides_witness :
    Lablog.delete_comment emptyLablog "c9" = .ok emptyLablog ∧
    Lablog.delete_comment midStoreC1 "c1" =
      .ok ⟨dictInsert midStoreC1.posts "p1" { badPostC1 with comments := badPostC1.comments.erase "c1" },
           dictErase midStoreC1.comments "c1"⟩ := by
  constructor
  · exact (C5_delete_comment_removes_both_sides emptyLablog "c9").1 (by rfl)
  · exact (((C5_delete_comment_removes_both_sides midStoreC1 "c1").2
      { name := "n", content := "hello", contact_address := "e@x",
        created_timestamp := 50, ip_address := "No IP info", comment_id := "c1",
        post_id := "p1", display := true } badPostC1 (by rfl) (by rfl) (by decide))).1

/-- C10: for a store holding the comment, delete_comment succeeds exactly
when the comment's `post_id` is a key of the posts map and the comment id
occurs in that post's comments list; with a dangling owner it raises
KeyError, and with an owner whose list is missing the id it raises
ValueError (from `list.remove`), deleting nothing in either case. -/
theorem C10_delete_comment_totality (s : Lablog) (cid : String) (c : CommentData)
    (hc : dictGet? s.comments cid = some c) :
    ((∃ s', s.delete_comment cid = .ok s') ↔
      ∃ p, dictGet? s.posts c.post_id = some p ∧ cid ∈ p.comments) ∧
    (dictGet? s.posts c.post_id = none → s.delete_comment cid = .error .keyError) ∧
    (∀ p, dictGet? s.posts c.post_id = some p → cid ∉ p.comments →
      s.delete_comment cid = .error .valueError) := by
  refine ⟨⟨?_, ?_⟩, ?_, ?_⟩
  · intro ⟨s', hs'⟩
    by_cases hp : ∃ p, dictGet? s.posts c.post_id = some p
    · obtain ⟨p, hpq⟩ := hp
      refine ⟨p, hpq, ?_⟩
      by_contra hmem
      simp [Lablog.delete_comment, hc, hpq, hmem] at hs'
    · cases hq : dictGet? s.posts c.post_id with
      | none => simp [Lablog.delete_comment, hc, hq] at hs'
      | some p => exact absurd ⟨p, hq⟩ hp
  · intro ⟨p, hpq, hmem⟩
    refine ⟨⟨dictInsert s.posts c.post_id { p with comments := p.comments.erase cid },
             dictErase s.comments cid⟩, ?_⟩
    simp [Lablog.delete_comment, hc, hpq, hmem]
  · intro hq
    simp [Lablog.delete_comment, hc, hq]
  · intro p hpq hmem
    simp [Lablog.delete_comment, hc, hpq, hmem]

/-- C10 witness: the theorem applied to danglingStore, whose comment "c1"
has the dangling owner "p9": the success equivalence refutes success, and
the KeyError branch fires. -/
theorem C10_delete_comment_totality_witness :
    Lablog.delete_comment danglingStore "c1" = .error .keyError := by
  exact (C10_delete_comment_totality danglingStore "c1" danglingComment (by rfl)).2.1 (by rfl)

theorem applyFilters_append (fs gs : List (PostMetadata → Bool)) (p : PostMetadata) :
    applyFilters (fs ++ gs) p = (applyFilters fs p && applyFilters gs p) := by
  simp [applyFilters, List.all_append]

theorem filtersOf_eval (q : GetPostsQuery) (p : PostMetadata) :
    applyFilters (filtersOf q) p = effMatchC3 q p := by
  unfold filtersOf effMatchC3
  rw [applyFilters_append, applyFilters_append, applyFilters_append,
      applyFilters_append, applyFilters_append, applyFilters_append]
  have h1 : applyFilters
      (match q.post_id with
       | none => []
       | some pid => [fun p => decide (p.post_id = pid)]) p =
      (match q.post_id with
       | none => true
       | some pid => decide (p.post_id = pid)) := by
    cases q.post_id <;> simp [applyFilters]
  have h2 : applyFilters
      (match q.post_id_list with
       | none => []
       | some l => if l.length > 0 then [fun p => decide (p.post_id ∈ l)] else []) p =
      (match q.post_id_list with
       | none => true
       | some l => if l.length > 0 then decide (p.post_id ∈ l) else true) := by
    cases q.post_id_list with
    | none => simp [applyFilters]
    | some l => by_cases hl : l.length > 0 <;> simp [applyFilters, hl]
  have h3 : applyFilters
      (match q.catagory with
       | none => []
       | some c => [fun p => decide (p.catagory = c)]) p =
      (match q.catagory with
       | none => true
       | some c => decide (p.catagory = c)) := by
    cases q.catagory <;> simp [applyFilters]
  have h4 : applyFilters
      (match q.tag with
       | none => []
       | some t => [fun p => decide (t ∈ p.tags)]) p =
      (match q.tag with
       | none => true
       | some t => decide (t ∈ p.tags)) := by
    cases q.tag <;> simp [applyFilters]
  have h5 : applyFilters
      (match q.tags with
       | none => []
       | some l => if l.length > 0 then [fun p => l.all (fun t => decide (t ∈ p.tags))] else []) p =
      (match q.tags with
       | none => true
       | some l => if l.length > 0 then l.all (fun t => decide (t ∈ p.tags)) else true) := by
    cases q.tags with
    | none => simp [applyFilters]
    | some l => by_cases hl : l.length > 0 <;> simp [applyFilters, hl]
  have h6 : applyFilters
      (match q.timestamp_start with
       | none => []
       | some t => [fun p => decide (t < p.created_timestamp)]) p =
      (match q.timestamp_start with
       | none => true
       | some t => decide (t < p.created_timestamp)) := by
    cases q.timestamp_start <;> simp [applyFilters]
  have h7 : applyFilters
      (match q.timestamp_stop with
       | none => []
       | some t => [fun p => decide (p.created_timestamp < t)]) p =
      (match q.timestamp_stop with
       | none => true
       | some t => decide (p.created_timestamp < t)) := by
    cases q.timestamp_stop <;> simp [applyFilters]
  rw [h1, h2, h3, h4, h5, h6, h7]

theorem perm_insertSortedBy (le : α → α → Bool) (a : α) (l : List α) :
    (insertSortedBy le a l).Perm (a :: l) := by
  induction l with
  | nil => exact List.Perm.refl _
  | cons b t ih =>
      by_cases h : le a b
      · simp [insertSortedBy, h]
      · simp only [insertSortedBy, if_neg h]
        exact List.Perm.trans (List.Perm.cons b ih) (List.Perm.swap a b t)

theorem perm_sortBy (le : α → α → Bool) (l : List α) :
    (sortBy le l).Perm l := by
  induction l with
  | nil => exact List.Perm.refl _
  | cons a t ih =>
      exact List.Perm.trans (perm_insertSortedBy le a (sortBy le t)) (List.Perm.cons a ih)

theorem mem_insertSortedBy {le : α → α → Bool} {a x : α} {l : List α} :
    x ∈ insertSortedBy le a l ↔ x = a ∨ x ∈ l := by
  rw [(perm_insertSortedBy le a l).mem_iff]
  simp

theorem pairwise_insertSortedBy {le : α → α → Bool}
    (htrans : ∀ x y z, le x y = true → le y z = true → le x z = true)
    (htotal : ∀ x y, le x y = true ∨ le y x = true)
    {a : α} {l : List α} (h : l.Pairwise (fun x y => le x y = true)) :
    (insertSortedBy le a l).Pairwise (fun x y => le x y = true) := by
  induction l with
  | nil => simp [insertSortedBy]
  | cons b t ih =>
      rw [List.pairwise_cons] at h
      by_cases hab : le a b
      · simp only [insertSortedBy, if_pos hab, List.pairwise_cons]
        refine ⟨?_, h⟩
        intro y hy
        rcases List.mem_cons.mp hy with hy | hy
        · rw [hy]; exact hab
        · exact htrans a b y hab (h.1 y hy)
      · simp only [insertSortedBy, if_neg hab, List.pairwise_cons]
        refine ⟨?_, ih h.2⟩
        intro y hy
        rcases mem_insertSortedBy.mp hy with hy | hy
        · rcases htotal a b with hx | hx
          · exact absurd hx hab
          · rw [hy]; exact hx
        · exact h.1 y hy

theorem pairwise_sortBy {le : α → α → Bool}
    (htrans : ∀ x y z, le x y = true → le y z = true → le x z = true)
    (htotal : ∀ x y, le x y = true ∨ le y x = true) (l : List α) :
    (sortBy le l).Pairwise (fun x y => le x y = true) := by
  induction l with
  | nil => simp [sortBy]
  | cons a t ih => exact pairwise_insertSortedBy htrans htotal ih

/-- C3 (counterexample): a supplied-but-empty `post_id_list` imposes no
constraint in the code, while the claim's conjunction semantics demands
that no post match `post_id ∈ []`: on a one-post store, the query with
`post_id_list = some []` returns the post even though it fails the
claimed conjunction of supplied criteria. -/
theorem C3_get_posts_counterexample :
    Lablog.get_posts sampleStore1 emptyListQuery = [samplePost1] ∧
    specConjunctionC3 emptyListQuery samplePost1 = false := by
  constructor
  · rfl
  · rfl

/-- C3 (amended): get_posts returns exactly the stored posts satisfying
the conjunction of the supplied criteria, where a supplied but empty
`post_id_list` or `tags` imposes no constraint, sorted by
`created_timestamp` descending; the last conjunct spells out the
effective criterion semantics as the conjunction over supplied
criteria. -/
theorem C3_get_posts_conjunction_sorted (s : Lablog) (q : GetPostsQuery) :
    (s.get_posts q).Perm ((dictValues s.posts).filter (effMatchC3 q)) ∧
    List.Pairwise (fun a b => b.created_timestamp ≤ a.created_timestamp) (s.get_posts q) ∧
    (∀ p : PostMetadata, effMatchC3 q p = true ↔
      ((∀ pid, q.post_id = some pid → p.post_id = pid) ∧
       (∀ l, q.post_id_list = some l → l ≠ [] → p.post_id ∈ l) ∧
       (∀ c, q.catagory = some c → p.catagory = c) ∧
       (∀ t, q.tag = some t → t ∈ p.tags) ∧
       (∀ l, q.tags = some l → ∀ t ∈ l, t ∈ p.tags) ∧
       (∀ t, q.timestamp_start = some t → t < p.created_timestamp) ∧
       (∀ t, q.timestamp_stop = some t → p.created_timestamp < t))) := by
  refine ⟨?_, ?_, ?_⟩
  · have hcong : ((dictValues s.posts).filter (applyFilters (filtersOf q))) =
        ((dictValues s.posts).filter (effMatchC3 q)) := by
      apply List.filter_congr
      intro p _
      exact filtersOf_eval q p
    unfold Lablog.get_posts
    rw [hcong]
    exact perm_sortBy _ _
  · have hs := @pairwise_sortBy PostMetadata descByTimestamp
      (fun a b c hab hbc => by
        simp only [descByTimestamp, decide_eq_true_eq] at hab hbc ⊢
        exact le_trans hbc hab)
      (fun a b => by
        simp only [descByTimestamp, decide_eq_true_eq]
        exact (le_total b.created_timestamp a.created_timestamp).elim Or.inl Or.inr)
      ((dictValues s.posts).filter (applyFilters (filtersOf q)))
    unfold Lablog.get_posts
    exact hs.imp (fun h => by
      simpa [descByTimestamp, decide_eq_true_eq] using h)
  · intro p
    unfold effMatchC3
    constructor
    · intro h
      simp only [Bool.and_eq_true] at h
      obtain ⟨⟨⟨⟨⟨⟨ha, hb⟩, hc⟩, hd⟩, he⟩, hf⟩, hg⟩ := h
      refine ⟨?_, ?_, ?_, ?_, ?_, ?_, ?_⟩
      · intro pid hq
        rw [hq] at ha
        exact of_decide_eq_true ha
      · intro l hq hne
        have hlen : l.length > 0 := List.length_pos.mpr hne
        simp only [hq, if_pos hlen] at hb
        exact of_decide_eq_true hb
      · intro c hq
        rw [hq] at hc
        exact of_decide_eq_true hc
      · intro t hq
        rw [hq] at hd
        exact of_decide_eq_true hd
      · intro l hq t ht
        by_cases hlen : l.length > 0
        · simp only [hq, if_pos hlen] at he
          exact of_decide_eq_true (List.all_eq_true.mp he t ht)
        · have hl : l = [] := by
            cases l with
            | nil => rfl
            | cons x xs => simp at hlen
          subst hl
          simp at ht
      · intro t hq
        rw [hq] at hf
        exact of_decide_eq_true hf
      · intro t hq
        rw [hq] at hg
        exact of_decide_eq_true hg
    · intro ⟨ha, hb, hc, hd, he, hf, hg⟩
      simp only [Bool.and_eq_true]
      refine ⟨⟨⟨⟨⟨⟨?_, ?_⟩, ?_⟩, ?_⟩, ?_⟩, ?_⟩, ?_⟩
      · cases hq : q.post_id with
        | none => rfl
        | some pid => exact decide_eq_true (ha pid hq)
      · cases hq : q.post_id_list with
        | none => rfl
        | some l =>
            by_cases hlen : l.length > 0
            · simp only [if_pos hlen]
              exact decide_eq_true (hb l hq (List.length_pos.mp hlen))
            · simp only [if_neg hlen]
      · cases hq : q.catagory with
        | none => rfl
        | some c => exact decide_eq_true (hc c hq)
      · cases hq : q.tag with
        | none => rfl
        | some t => exact decide_eq_true (hd t hq)
      · cases hq : q.tags with
        | none => rfl
        | some l =>
            by_cases hlen : l.length > 0
            · simp only [if_pos hlen]
              exact List.all_eq_true.mpr (fun t ht => decide_eq_true (he l hq t ht))
            · simp only [if_neg hlen]
      · cases hq : q.timestamp_start with
        | none => rfl
        | some t => exact decide_eq_true (hf t hq)
      · cases hq : q.timestamp_stop with
        | none => rfl
        | some t => exact decide_eq_true (hg t hq)

/-- C6: a comment submitted through the public endpoint (rate-limit and
spam checks passing) is stored with display = false, so
get_comments_for_display on the post's id list returns exactly what it
returned before the submission; after a privileged modify_comment sets
display = true the comment appears, projected to only name, content and
the timestamp truncated to integer seconds (the DisplayCommentData shape
carries no contact_address, ip_address, comment_id, post_id or display
field at all). -/
theorem C6_public_comment_display_flow (s : Lablog) (led : RateLedger)
    (pid cid name content addr host : String) (now : ℚ) (spam : List String)
    (p : PostMetadata)
    (hp : dictGet? s.posts pid = some p)
    (hfresh : dictGet? s.comments cid = none)
    (hrate : (is_rate_limited led host now).1 = false)
    (hspam : is_spam spam content = false) :
    add_comment_for_post led s pid name content addr host now spam cid
      = .ok ((is_rate_limited led host now).2,
             ⟨dictInsert s.posts pid { p with comments := p.comments ++ [cid] },
              s.comments ++ [(cid, newComment cid name content addr none now (some host) pid false)]⟩,
             cid) ∧
    dictGet? (s.comments ++ [(cid, newComment cid name content addr none now (some host) pid false)]) cid
      = some (newComment cid name content addr none now (some host) pid false) ∧
    Lablog.get_comments_for_display
      ⟨dictInsert s.posts pid { p with comments := p.comments ++ [cid] },
       s.comments ++ [(cid, newComment cid name content addr none now (some host) pid false)]⟩
      (p.comments ++ [cid])
      = s.get_comments_for_display p.comments ∧
    Lablog.modify_comment
      ⟨dictInsert s.posts pid { p with comments := p.comments ++ [cid] },
       s.comments ++ [(cid, newComment cid name content addr none now (some host) pid false)]⟩
      cid { display := some true }
      = .ok ⟨dictInsert s.posts pid { p with comments := p.comments ++ [cid] },
             dictInsert (s.comments ++ [(cid, newComment cid name content addr none now (some host) pid false)])
               cid (newComment cid name content addr none now (some host) pid true)⟩ ∧
    ({ name := name, content := content, created_timestamp := pyTrunc now } : DisplayCommentData)
      ∈ Lablog.get_comments_for_display
          ⟨dictInsert s.posts pid { p with comments := p.comments ++ [cid] },
           dictInsert (s.comments ++ [(cid, newComment cid name content addr none now (some host) pid false)])
             cid (newComment cid name content addr none now (some host) pid true)⟩
          (p.comments ++ [cid]) := by
  have hct : dictContains s.posts pid = true := by
    unfold dictContains
    rw [hp]
    rfl
  have hcm0 : dictGet? (s.comments ++ [(cid, newComment cid name content addr none now (some host) pid false)]) cid
      = some (newComment cid name content addr none now (some host) pid false) := by
    rw [dictGet?_append_of_none hfresh]
    simp [dictGet?]
  refine ⟨?_, hcm0, ?_, ?_, ?_⟩
  · unfold add_comment_for_post
    simp only [hrate, Bool.false_eq_true, if_false, hspam, Lablog.add_comment, hct, if_pos, hp]
    rw [dictInsert_eq_append _ hfresh]
    rfl
  · unfold Lablog.get_comments_for_display
    congr 1
    rw [List.filterMap_append]
    have h2 : List.filterMap (fun cid' =>
        match dictGet? (s.comments ++ [(cid, newComment cid name content addr none now (some host) pid false)]) cid' with
        | none => none
        | some c =>
            if c.display then
              some ({ name := c.name, content := c.content,
                      created_timestamp := pyTrunc c.created_timestamp } : DisplayCommentData)
            else none) [cid] = [] := by
      rw [List.filterMap_cons]
      rw [hcm0]
      simp [newComment, List.filterMap_nil]
    rw [h2, List.append_nil]
    apply List.filterMap_congr
    intro x _
    by_cases hx : x = cid
    · subst hx
      rw [hcm0, hfresh]
      simp [newComment]
    · have hxne : dictGet? (s.comments ++ [(cid, newComment cid name content addr none now (some host) pid false)]) x
          = dictGet? s.comments x := by
        cases hq : dictGet? s.comments x with
        | some v => exact dictGet?_append_of_some hq
        | none =>
            rw [dictGet?_append_of_none hq]
            have hx' : ¬ (cid = x) := fun h => hx h.symm
            simp [dictGet?, hx']
      rw [hxne]
  · unfold Lablog.modify_comment
    have hnn : ¬ (({ display := some true } : CommentPatch).isNone) := by
      simp [CommentPatch.isNone]
    rw [if_neg hnn, hcm0]
    rfl
  · unfold Lablog.get_comments_for_display
    rw [(perm_sortBy _ _).mem_iff, List.filterMap_append]
    apply List.mem_append_right
    have hlook : dictGet?
        (dictInsert (s.comments ++ [(cid, newComment cid name content addr none now (some host) pid false)])
          cid (newComment cid name content addr none now (some host) pid true)) cid
        = some (newComment cid name content addr none now (some host) pid true) :=
      dictGet?_dictInsert_self _ _ _
    apply List.mem_filterMap.mpr
    refine ⟨cid, List.mem_singleton_self _, ?_⟩
    rw [hlook]
    simp [newComment]

/-- C6 witness: the theorem applied to sampleStore1 with a concrete
public submission "c1" on post "p1": the display collection is unchanged
while display = false, and the projected comment appears after the flag
flips. -/
theorem C6_public_comment_display_flow_witness :
    Lablog.get_comments_for_display
      ⟨dictInsert sampleStore1.posts "p1" { samplePost1 with comments := samplePost1.comments ++ ["c1"] },
       sampleStore1.comments ++ [("c1", newComment "c1" "bob" "hi" "e" none 100 (some "h") "p1" false)]⟩
      (samplePost1.comments ++ ["c1"])
      = sampleStore1.get_comments_for_display samplePost1.comments ∧
    ({ name := "bob", content := "hi", created_timestamp := pyTrunc 100 } : DisplayCommentData)
      ∈ Lablog.get_comments_for_display
          ⟨dictInsert sampleStore1.posts "p1" { samplePost1 with comments := samplePost1.comments ++ ["c1"] },
           dictInsert (sampleStore1.comments ++ [("c1", newComment "c1" "bob" "hi" "e" none 100 (some "h") "p1" false)])
             "c1" (newComment "c1" "bob" "hi" "e" none 100 (some "h") "p1" true)⟩
          (samplePost1.comments ++ ["c1"]) := by
  have h := C6_public_comment_display_flow sampleStore1 [] "p1" "c1" "bob" "hi" "e" "h" 100 []
      samplePost1 (by rfl) (by rfl) (by rfl) (by rfl)
  exact ⟨h.2.2.1, h.2.2.2.2⟩

/-- C7: for a fixed client host starting from an empty ledger, six checks
at nondecreasing times all falling inside one 30-minute window pass five
times and are rate limited on the sixth; the final ledger holds exactly
the five recorded timestamps (the sixth check records nothing), and each
check pruned nothing because every earlier timestamp is younger than 30
minutes. -/
theorem C7_rate_limiter_five_per_window (host : String) (t1 t2 t3 t4 t5 t6 : ℚ)
    (h12 : t1 ≤ t2) (h23 : t2 ≤ t3) (h34 : t3 ≤ t4) (h45 : t4 ≤ t5) (h56 : t5 ≤ t6)
    (hw : t6 - t1 < 1800) :
    rlChain host [] [t1, t2, t3, t4, t5, t6]
      = ([false, false, false, false, false, true], [(host, [t1, t2, t3, t4, t5])]) := by
  have key : ∀ x y : ℚ, t1 ≤ x → y ≤ t6 → y - x < 1800 := by
    intro x y hx hy
    linarith
  have l12 : t1 ≤ t2 := h12
  have l13 : t1 ≤ t3 := le_trans h12 h23
  have l14 : t1 ≤ t4 := le_trans l13 h34
  have l15 : t1 ≤ t5 := le_trans l14 h45
  have l16 : t1 ≤ t6 := le_trans l15 h56
  have u26 : t2 ≤ t6 := le_trans h23 (le_trans h34 (le_trans h45 h56))
  have u36 : t3 ≤ t6 := le_trans h34 (le_trans h45 h56)
  have u46 : t4 ≤ t6 := le_trans h45 h56
  have u56 : t5 ≤ t6 := h56
  have d21 : decide (t2 - t1 < 1800) = true := decide_eq_true (key t1 t2 le_rfl u26)
  have d31 : decide (t3 - t1 < 1800) = true := decide_eq_true (key t1 t3 le_rfl u36)
  have d32 : decide (t3 - t2 < 1800) = true := decide_eq_true (key t2 t3 l12 u36)
  have d41 : decide (t4 - t1 < 1800) = true := decide_eq_true (key t1 t4 le_rfl u46)
  have d42 : decide (t4 - t2 < 1800) = true := decide_eq_true (key t2 t4 l12 u46)
  have d43 : decide (t4 - t3 < 1800) = true := decide_eq_true (key t3 t4 l13 u46)
  have d51 : decide (t5 - t1 < 1800) = true := decide_eq_true (key t1 t5 le_rfl u56)
  have d52 : decide (t5 - t2 < 1800) = true := decide_eq_true (key t2 t5 l12 u56)
  have d53 : decide (t5 - t3 < 1800) = true := decide_eq_true (key t3 t5 l13 u56)
  have d54 : decide (t5 - t4 < 1800) = true := decide_eq_true (key t4 t5 l14 u56)
  have d61 : decide (t6 - t1 < 1800) = true := decide_eq_true hw
  have d62 : decide (t6 - t2 < 1800) = true := decide_eq_true (key t2 t6 l12 le_rfl)
  have d63 : decide (t6 - t3 < 1800) = true := decide_eq_true (key t3 t6 l13 le_rfl)
  have d64 : decide (t6 - t4 < 1800) = true := decide_eq_true (key t4 t6 l14 le_rfl)
  have d65 : decide (t6 - t5 < 1800) = true := decide_eq_true (key t5 t6 l15 le_rfl)
  have e1 : is_rate_limited [] host t1 = (false, [(host, [t1])]) := by
    simp [is_rate_limited, ledgerGet, dictGet?, dictInsert, List.filter]
  have e2 : is_rate_limited [(host, [t1])] host t2 = (false, [(host, [t1, t2])]) := by
    simp [is_rate_limited, ledgerGet, dictGet?, dictInsert, List.filter, d21]
  have e3 : is_rate_limited [(host, [t1, t2])] host t3 = (false, [(host, [t1, t2, t3])]) := by
    simp [is_rate_limited, ledgerGet, dictGet?, dictInsert, List.filter, d31, d32]
  have e4 : is_rate_limited [(host, [t1, t2, t3])] host t4
      = (false, [(host, [t1, t2, t3, t4])]) := by
    simp [is_rate_limited, ledgerGet, dictGet?, dictInsert, List.filter, d41, d42, d43]
  have e5 : is_rate_limited [(host, [t1, t2, t3, t4])] host t5
      = (false, [(host, [t1, t2, t3, t4, t5])]) := by
    simp [is_rate_limited, ledgerGet, dictGet?, dictInsert, List.filter, d51, d52, d53, d54]
  have e6 : is_rate_limited [(host, [t1, t2, t3, t4, t5])] host t6
      = (true, [(host, [t1, t2, t3, t4, t5])]) := by
    simp [is_rate_limited, ledgerGet, dictGet?, dictInsert, List.filter,
          d61, d62, d63, d64, d65]
  simp [rlChain, e1, e2, e3, e4, e5, e6]

/-- C7 witness: the theorem applied to six checks at times 0, 300, 600,
900, 1200, 1500 seconds. -/
theorem C7_rate_limiter_five_per_window_witness :
    rlChain "h" [] [0, 300, 600, 900, 1200, 1500]
      = ([false, false, false, false, false, true], [("h", [0, 300, 600, 900, 1200])]) :=
  C7_rate_limiter_five_per_window "h" 0 300 600 900 1200 1500
    (by norm_num) (by norm_num) (by norm_num) (by norm_num) (by norm_num) (by norm_num)

theorem decodeStringList_encode (l : List String) :
    decodeStringList (encodeStringList l) = some l := by
  unfold decodeStringList encodeStringList
  induction l with
  | nil => rfl
  | cons a t ih =>
      simp only [List.map_cons, List.mapM_cons, asStr, Option.pure_def, Option.bind_some,
        Option.bind_eq_bind] at ih ⊢
      have ih' : List.mapM.loop asStr (List.map (fun t => JValue.jstr t) t) [] = some t := ih
      simp [ih']

theorem decodePost_encodePost (p : PostMetadata) : decodePost (encodePost p) = some p := by
  unfold decodePost encodePost jfield
  simp [List.lookup, asStr, asNum, decodeStringList_encode]

theorem decodeComment_encodeComment (c : CommentData) :
    decodeComment (encodeComment c) = some c := by
  unfold decodeComment encodeComment jfield
  simp [List.lookup, asStr, asNum, asBool]

theorem decodeMap_encode {α : Type} (enc : α → JValue) (dec : JValue → Option α)
    (h : ∀ a, dec (enc a) = some a) (m : List (String × α)) :
    decodeMap dec (.jobj (m.map (fun e => (e.1, enc e.2)))) = some m := by
  unfold decodeMap
  induction m with
  | nil => rfl
  | cons e t ih =>
      simp only [List.map_cons, List.mapM_cons, h, Option.map_some, Option.pure_def,
        Option.bind_eq_bind, Option.bind_some] at ih ⊢
      have ih' : List.mapM.loop (fun e => Option.map (fun r => (e.1, r)) (dec e.2))
          (List.map (fun e => (e.1, enc e.2)) t) [] = some t := ih
      simp [ih']

theorem load_from_file_serialize (s : Lablog) :
    Lablog.load_from_file s.serialize = some s := by
  unfold Lablog.load_from_file Lablog.serialize jfield
  simp [List.lookup, decodeMap_encode encodePost decodePost decodePost_encodePost,
        decodeMap_encode encodeComment decodeComment decodeComment_encodeComment]

theorem serialize_injective {s1 s2 : Lablog} (h : s1.serialize = s2.serialize) :
    s1 = s2 := by
  have h1 := load_from_file_serialize s1
  rw [h, load_from_file_serialize s2] at h1
  cases h1
  rfl

/-- C9: loading back the serialized snapshot reproduces the store
exactly: the posts map and the comments map of the reloaded store equal
the originals, key for key and field for field, for every store state. -/
theorem C9_serialize_load_lossless (s : Lablog) :
    Lablog.load_from_file s.serialize = some s :=
  load_from_file_serialize s

/-- C8: with check_hash the save is skipped exactly when the store's
fingerprint equals the last-saved one, and otherwise (or always with
check_hash = false) the store is written to disk and the fingerprint
recorded; consequently two consecutive check_hash saves with an unsaved
store write exactly once, and a content mutation between two such saves
forces a second write. -/
theorem C8_save_database_hash_skip (st : DBManagerState) (s s' : Lablog) :
    (some s.get_data_hash = st.data_hash → save_database st s true = st) ∧
    (some s.get_data_hash ≠ st.data_hash →
      save_database st s true = ⟨some s.get_data_hash, st.disk ++ [s.serialize]⟩) ∧
    (save_database st s false = ⟨some s.get_data_hash, st.disk ++ [s.serialize]⟩) ∧
    (some s.get_data_hash ≠ st.data_hash →
      (save_database (save_database st s true) s true).disk = st.disk ++ [s.serialize]) ∧
    (some s.get_data_hash ≠ st.data_hash → s'.get_data_hash ≠ s.get_data_hash →
      (save_database (save_database st s true) s' true).disk
        = st.disk ++ [s.serialize, s'.serialize]) := by
  refine ⟨?_, ?_, ?_, ?_, ?_⟩
  · intro h
    simp [save_database, h]
  · intro h
    simp [save_database, h]
  · simp [save_database]
  · intro h
    simp [save_database, h]
  · intro h hm
    have hm' : ¬ (some s'.get_data_hash = some s.get_data_hash) := by
      intro hx
      exact hm (Option.some_injective _ hx)
    simp [save_database, h, hm']

/-- C8 witness: starting from the freshly initialized manager
(data_hash = "" modelled as none), a check_hash save of the empty store
writes once and a repeat skips; mutating to sampleStore1 between two
check_hash saves forces the second write. -/
theorem C8_save_database_hash_skip_witness :
    (save_database (save_database initialDBState emptyLablog true) emptyLablog true).disk
      = initialDBState.disk ++ [emptyLablog.serialize] ∧
    (save_database (save_database initialDBState emptyLablog true) sampleStore1 true).disk
      = initialDBState.disk ++ [emptyLablog.serialize, sampleStore1.serialize] := by
  constructor
  · exact (C8_save_database_hash_skip initialDBState emptyLablog sampleStore1).2.2.2.1
      (by simp [initialDBState])
  · exact (C8_save_database_hash_skip initialDBState emptyLablog sampleStore1).2.2.2.2
      (by simp [initialDBState])
      (by simp [Lablog.get_data_hash, sampleStore1, emptyLablog])
